import Mathlib

set_option maxRecDepth 100000

/-!
Verification of the SQL statement splitter of `d1-exporter` (`src/main.ts`).

The splitter (`splitSqlStatements`) scans the input left to right, tracking
whether the current position is inside a quoted string or a line comment, and
emits the trimmed accumulated buffer at each top-level terminator `;`.

The embedding below models characters as `Char`, strings as `List Char`
(converted from Lean `String` at the boundary), JavaScript's
`string.trim()` as `jsTrim` over the ECMAScript whitespace set, and the
scanning loop as the structurally recursive `scanSql` over `stepSplit`,
with the loop's `prevChar` / `nextChar` passed explicitly (`none` plays the
role of the empty string produced by out-of-range indexing).
-/

/-- The ECMAScript whitespace set used by `String.prototype.trim`:
WhiteSpace (TAB, VT, FF, SP, NBSP, ZWNBSP, Unicode space separators)
together with LineTerminator (LF, CR, LS, PS). -/
def isJsWhitespace (c : Char) : Bool :=
  c = ' ' || c = '\t' || c = '\n' || c = '\r' ||
  c = Char.ofNat 0x0b || c = Char.ofNat 0x0c ||
  c = Char.ofNat 0xa0 || c = Char.ofNat 0x1680 ||
  (0x2000 ≤ c.toNat && c.toNat ≤ 0x200a) ||
  c = Char.ofNat 0x2028 || c = Char.ofNat 0x2029 ||
  c = Char.ofNat 0x202f || c = Char.ofNat 0x205f ||
  c = Char.ofNat 0x3000 || c = Char.ofNat 0xfeff

/-- JavaScript `string.trim()`: drop leading and trailing whitespace. -/
def jsTrim (l : List Char) : List Char :=
  ((l.dropWhile isJsWhitespace).reverse.dropWhile isJsWhitespace).reverse

/-- The mutable loop state of `splitSqlStatements`: the emitted statements,
the accumulating buffer `currentStatement`, and the lexer flags
`inString` / `inComment` / `stringChar` (the JS `stringChar` is `''` or a
single quote character, modelled as `Option Char`). -/
structure SplitState where
  statements : List (List Char)
  current : List Char
  inString : Bool
  inComment : Bool
  stringChar : Option Char
  deriving DecidableEq, Repr

/-- `handleComments` from `src/main.ts`: returns
`(shouldContinue, newInComment)`. -/
def handleComments (c : Char) (next : Option Char) (inString inComment : Bool) :
    Bool × Bool :=
  if inString = false ∧ c = '-' ∧ next = some '-' then (true, true)
  else if inComment = true ∧ (c = '\n' ∨ c = '\r') then (true, false)
  else (false, inComment)

/-- `handleStrings` from `src/main.ts`: returns
`(shouldContinue, newInString, newStringChar)`. -/
def handleStrings (c : Char) (prev : Option Char) (inString : Bool)
    (stringChar : Option Char) : Bool × Bool × Option Char :=
  if inString = false ∧ (c = '\'' ∨ c = '"') then (true, true, some c)
  else if inString = true ∧ some c = stringChar ∧ prev ≠ some '\\' then
    (true, false, none)
  else (false, inString, stringChar)

/-- One iteration of the `for` loop of `splitSqlStatements`: append the
character to the buffer, then run the comment check, the in-comment skip,
the string check, the in-string skip, and finally the terminator check. -/
def stepSplit (st : SplitState) (prev : Option Char) (c : Char)
    (next : Option Char) : SplitState :=
  let cur := st.current ++ [c]
  let cr := handleComments c next st.inString st.inComment
  if cr.1 = true then
    { st with current := cur, inComment := cr.2 }
  else if st.inComment = true then
    { st with current := cur }
  else
    let sr := handleStrings c prev st.inString st.stringChar
    if sr.1 = true then
      { st with current := cur, inString := sr.2.1, stringChar := sr.2.2 }
    else if st.inString = true then
      { st with current := cur }
    else if c = ';' then
      { st with statements := st.statements ++ [jsTrim cur], current := [] }
    else
      { st with current := cur }

/-- The lookahead `nextChar = sqlContent[i + 1] || ''` relative to the
remaining characters, with `foll` the character (if any) that follows the
whole chunk being scanned. -/
def nextOf (l : List Char) (foll : Option Char) : Option Char :=
  match l with
  | [] => foll
  | c :: _ => some c

/-- The lookback `prevChar` after a chunk `l` has been consumed, where `p`
was the lookback before the chunk. -/
def prevAfter (l : List Char) (p : Option Char) : Option Char :=
  match l.getLast? with
  | some c => some c
  | none => p

/-- The scanning loop of `splitSqlStatements`: fold `stepSplit` over the
characters, threading `prevChar` and computing `nextChar` by lookahead
(`foll` supplies the character following the chunk, `none` at top level). -/
def scanSql (st : SplitState) (prev : Option Char) (l : List Char)
    (foll : Option Char) : SplitState :=
  match l with
  | [] => st
  | c :: rest => scanSql (stepSplit st prev c (nextOf rest foll)) (some c) rest foll

/-- The initial loop state: no statements, empty buffer, all flags clear. -/
def initState : SplitState := ⟨[], [], false, false, none⟩

/-- `splitSqlStatements` on character lists: run the scan, then append the
trimmed final buffer when it is non-empty after trimming. -/
def splitChars (l : List Char) : List (List Char) :=
  let st := scanSql initState none l none
  if jsTrim st.current = [] then st.statements
  else st.statements ++ [jsTrim st.current]

/-- `splitSqlStatements` from `src/main.ts` at the `String` boundary. -/
def splitSqlStatements (s : String) : List String :=
  (splitChars s.data).map fun l => String.mk l

/-- A character list made of whitespace only. -/
def allWs (l : List Char) : Prop := ∀ c ∈ l, isJsWhitespace c = true

/-- States reachable by the scanner: `stringChar` is cleared whenever the
scanner is not inside a string, and is only ever a quote character. -/
def GoodState (st : SplitState) : Prop :=
  (st.inString = false → st.stringChar = none) ∧
  (st.stringChar = none ∨ st.stringChar = some '\'' ∨ st.stringChar = some '"')

/-- At most one of `inString` / `inComment` holds. -/
def stateExclusive (st : SplitState) : Prop :=
  ¬(st.inString = true ∧ st.inComment = true)

/-- A completed segment `s` (ending in its terminator) scans from any
normal empty-buffer state to the state that has emitted `jsTrim s`. -/
def SegScans (s : List Char) : Prop :=
  ∀ (ss : List (List Char)) (p foll : Option Char),
    scanSql ⟨ss, [], false, false, none⟩ p s foll =
      ⟨ss ++ [jsTrim s], [], false, false, none⟩

/-- The scanner's current buffer replays from any normal empty-buffer
state to the scanner's current flags, for the given lookahead `nx`. -/
def CurScan (st : SplitState) (nx : Option Char) : Prop :=
  ∀ (ss : List (List Char)) (p : Option Char),
    scanSql ⟨ss, [], false, false, none⟩ p st.current nx =
      ⟨ss, st.current, st.inString, st.inComment, st.stringChar⟩

/-- Main invariant of the scan: the processed input decomposes into the
terminated segments (whose trims are the emitted statements) followed by
the current buffer, and both the segments and the buffer replay. -/
def MainInv (processed : List Char) (st : SplitState) (nx : Option Char) : Prop :=
  ∃ segs : List (List Char),
    processed = segs.flatten ++ st.current ∧
    st.statements = segs.map jsTrim ∧
    (∀ s ∈ segs, s.getLast? = some ';' ∧ SegScans s) ∧
    CurScan st nx

/-- Interleave statements with trailing whitespace chunks. -/
def wsInterleave (stmts ws : List (List Char)) : List Char :=
  (List.zipWith (fun s w => s ++ w) stmts ws).flatten

/-- `stmts` reconstructs `l` up to whitespace around each statement:
`l` is the statements in order, with only whitespace in the gaps. -/
def ReconstructsModWs (stmts : List (List Char)) (l : List Char) : Prop :=
  ∃ (ws0 : List Char) (ws : List (List Char)),
    allWs ws0 ∧ ws.length = stmts.length ∧ (∀ w ∈ ws, allWs w) ∧
    l = ws0 ++ wsInterleave stmts ws

/-- The scanner's string-closing test, replayed on its own: `true` when no
character of the list closes a string opened with quote `q`, given the
previous character `prev`. -/
def staysInString (q : Char) (prev : Option Char) : List Char → Bool
  | [] => true
  | c :: rest =>
      if c = q ∧ prev ≠ some '\\' then false else staysInString q (some c) rest

/-- C1: the claim expects the middle `;` to be dropped, but the code pushes
the trimmed buffer unconditionally at every top-level terminator. -/
theorem splitSql_consecutive_terminators_claim_false :
    splitSqlStatements "A;;B;" ≠ ["A;", "B;"] := by decide

/-- C1 (amended): on `"A;;B;"` the splitter emits `["A;", ";", "B;"]` --
each top-level terminator emits the trimmed buffer unconditionally (the
buffer always contains at least the terminator, hence is never empty after
trimming); only the final unterminated remainder is subject to the
empty-after-trim filter. -/
theorem splitSql_consecutive_terminators :
    splitSqlStatements "A;;B;" = ["A;", ";", "B;"] := by decide

/-- C3: while inside a quoted string, no scan step ever emits a statement
(so a `;` inside a string is never a boundary), and the spec's example
splits into exactly one statement. -/
theorem splitSql_string_no_boundary :
    (∀ (st : SplitState) (p : Option Char) (c : Char) (n : Option Char),
      st.inString = true → (stepSplit st p c n).statements = st.statements) ∧
    splitSqlStatements "INSERT INTO t VALUES ('a;b');" =
      ["INSERT INTO t VALUES ('a;b');"] := by
  constructor
  · intro st p c n h
    simp only [stepSplit, handleComments, handleStrings]
    repeat' split
    all_goals simp_all
  · decide

/-- Witness for C3 at a concrete in-string state and the terminator. -/
theorem splitSql_string_no_boundary_witness :
    (stepSplit ⟨[], ['a'], true, false, some '\''⟩ none ';' none).statements
      = [] :=
  splitSql_string_no_boundary.1 ⟨[], ['a'], true, false, some '\''⟩ none ';' none rfl

/-- C4: while inside a line comment, no scan step ever emits a statement
(so a `;` inside a comment is never a boundary), and the spec's example
splits into exactly one statement. -/
theorem splitSql_comment_no_boundary :
    (∀ (st : SplitState) (p : Option Char) (c : Char) (n : Option Char),
      st.inComment = true → (stepSplit st p c n).statements = st.statements) ∧
    splitSqlStatements "-- comment ; with terminator\nSELECT 1;" =
      ["-- comment ; with terminator\nSELECT 1;"] := by
  constructor
  · intro st p c n h
    simp only [stepSplit, handleComments, handleStrings]
    repeat' split
    all_goals simp_all
  · decide

/-- Witness for C4 at a concrete in-comment state and the terminator. -/
theorem splitSql_comment_no_boundary_witness :
    (stepSplit ⟨[], ['-', '-'], false, true, none⟩ (some '-') ';' none).statements
      = [] :=
  splitSql_comment_no_boundary.1 ⟨[], ['-', '-'], false, true, none⟩ (some '-') ';' none rfl

/-- C6: a character equal to the opening quote whose previous character is a
backslash does not exit string mode, and the spec's escaped-quote example
splits into exactly one statement. -/
theorem splitSql_escaped_quote :
    (∀ (st : SplitState) (p : Option Char) (c : Char) (n : Option Char),
      st.inString = true → st.stringChar = some c → p = some '\\' →
      (stepSplit st p c n).inString = true) ∧
    splitSqlStatements "SELECT 'it\\'s';" = ["SELECT 'it\\'s';"] := by
  constructor
  · intro st p c n h hq hp
    simp only [stepSplit, handleComments, handleStrings]
    repeat' split
    all_goals simp_all
  · decide

/-- Witness for C6 at a concrete in-string state with a backslash lookback. -/
theorem splitSql_escaped_quote_witness :
    (stepSplit ⟨[], ['x'], true, false, some '\''⟩ (some '\\') '\'' none).inString
      = true :=
  splitSql_escaped_quote.1 ⟨[], ['x'], true, false, some '\''⟩ (some '\\') '\'' none
    rfl rfl rfl

/-- C7: the empty input yields no statements; whenever the final buffer is
non-empty after trimming, it is appended (trimmed) as a final statement;
and `"SELECT 1"` (no terminator) yields exactly `["SELECT 1"]`. -/
theorem splitSql_trailing_statement :
    splitSqlStatements "" = [] ∧
    (∀ l : List Char,
      jsTrim (scanSql initState none l none).current ≠ [] →
      splitChars l = (scanSql initState none l none).statements ++
        [jsTrim (scanSql initState none l none).current]) ∧
    splitSqlStatements "SELECT 1" = ["SELECT 1"] := by
  refine ⟨by decide, ?_, by decide⟩
  intro l h
  unfold splitChars
  simp only [if_neg h]

/-- Witness for C7's final-buffer clause at the input `"SELECT 1"`. -/
theorem splitSql_trailing_statement_witness :
    splitChars "SELECT 1".data =
      (scanSql initState none "SELECT 1".data none).statements ++
        [jsTrim (scanSql initState none "SELECT 1".data none).current] :=
  splitSql_trailing_statement.2.1 "SELECT 1".data (by decide)

/-- Whitespace characters are none of the scanner's significant characters. -/
theorem wsChar_ne (c : Char) (h : isJsWhitespace c = true) :
    c ≠ '-' ∧ c ≠ '\'' ∧ c ≠ '"' ∧ c ≠ ';' := by
  refine ⟨?_, ?_, ?_, ?_⟩ <;> (rintro rfl; revert h; decide)

theorem dropWhile_ws_append (w x : List Char) (hw : allWs w) :
    (w ++ x).dropWhile isJsWhitespace = x.dropWhile isJsWhitespace := by
  induction w with
  | nil => rfl
  | cons a t ih =>
      have ha : isJsWhitespace a = true := hw a (by simp)
      simp only [List.cons_append, List.dropWhile_cons, ha, if_true]
      exact ih fun c hc => hw c (by simp [hc])

theorem dropWhile_ws_getLast (l : List Char) (c : Char)
    (h : l.getLast? = some c) (hc : isJsWhitespace c = false) :
    (l.dropWhile isJsWhitespace).getLast? = some c ∧
      l.dropWhile isJsWhitespace ≠ [] := by
  induction l with
  | nil => simp at h
  | cons a t ih =>
      cases t with
      | nil =>
          simp only [List.getLast?_singleton, Option.some.injEq] at h
          subst h
          simp [List.dropWhile_cons, hc]
      | cons b t' =>
          rw [List.getLast?_cons_cons] at h
          rcases ih h with ⟨h1, h2⟩
          by_cases ha : isJsWhitespace a = true
          · rw [List.dropWhile_cons, if_pos ha]
            exact ⟨h1, h2⟩
          · rw [List.dropWhile_cons, if_neg ha]
            constructor
            · rw [List.getLast?_cons_cons]
              exact h
            · simp

theorem head_dropWhile_ws (l : List Char) (a : Char)
    (h : (l.dropWhile isJsWhitespace).head? = some a) :
    isJsWhitespace a = false := by
  induction l with
  | nil => simp at h
  | cons x t ih =>
      by_cases hx : isJsWhitespace x = true
      · rw [List.dropWhile_cons, if_pos hx] at h
        exact ih h
      · rw [List.dropWhile_cons, if_neg hx] at h
        simp only [List.head?_cons, Option.some.injEq] at h
        subst h
        exact Bool.eq_false_iff.mpr hx

theorem dropWhile_ws_of_head (l : List Char)
    (h : ∀ a, l.head? = some a → isJsWhitespace a = false) :
    l.dropWhile isJsWhitespace = l := by
  cases l with
  | nil => rfl
  | cons x t =>
      have := h x rfl
      simp [List.dropWhile_cons, this]

theorem jsTrim_eq_dropWhile (l : List Char) (c : Char)
    (h : l.getLast? = some c) (hc : isJsWhitespace c = false) :
    jsTrim l = l.dropWhile isJsWhitespace := by
  rcases dropWhile_ws_getLast l c h hc with ⟨h1, _⟩
  unfold jsTrim
  rw [dropWhile_ws_of_head]
  · exact List.reverse_reverse _
  · intro a ha
    rw [List.head?_reverse] at ha
    rw [h1] at ha
    cases ha
    exact hc

theorem jsTrim_getLast (l : List Char) (c : Char)
    (h : l.getLast? = some c) (hc : isJsWhitespace c = false) :
    (jsTrim l).getLast? = some c ∧ jsTrim l ≠ [] := by
  rw [jsTrim_eq_dropWhile l c h hc]
  exact dropWhile_ws_getLast l c h hc

theorem jsTrim_ws_append (w x : List Char) (hw : allWs w) :
    jsTrim (w ++ x) = jsTrim x := by
  unfold jsTrim
  rw [dropWhile_ws_append w x hw]

theorem jsTrim_decomp (x : List Char) :
    ∃ a b, allWs a ∧ allWs b ∧ x = a ++ jsTrim x ++ b := by
  refine ⟨x.takeWhile isJsWhitespace,
    ((x.dropWhile isJsWhitespace).reverse.takeWhile isJsWhitespace).reverse,
    ?_, ?_, ?_⟩
  · intro c hc
    exact List.mem_takeWhile_imp hc
  · intro c hc
    rw [List.mem_reverse] at hc
    exact List.mem_takeWhile_imp hc
  · unfold jsTrim
    conv_lhs => rw [← List.takeWhile_append_dropWhile (p := isJsWhitespace) (l := x)]
    rw [List.append_assoc]
    congr 1
    conv_lhs => rw [← List.reverse_reverse (x.dropWhile isJsWhitespace)]
    conv_lhs =>
      rw [← List.takeWhile_append_dropWhile (p := isJsWhitespace)
        (l := (x.dropWhile isJsWhitespace).reverse)]
    rw [List.reverse_append]

theorem jsTrim_within (x : List Char) : jsTrim x <:+: x := by
  rcases jsTrim_decomp x with ⟨a, b, _, _, hx⟩
  exact ⟨a, b, hx.symm⟩

theorem allWs_of_jsTrim_nil (x : List Char) (h : jsTrim x = []) : allWs x := by
  rcases jsTrim_decomp x with ⟨a, b, ha, hb, hx⟩
  rw [h] at hx
  intro c hc
  rw [hx] at hc
  simp only [List.append_nil, List.mem_append] at hc
  rcases hc with hc | hc
  · exact ha c hc
  · exact hb c hc

theorem jsTrim_head (l : List Char) (a : Char)
    (h : (jsTrim l).head? = some a) : isJsWhitespace a = false := by
  unfold jsTrim at h
  rcases hsuff : (l.dropWhile isJsWhitespace).reverse.dropWhile isJsWhitespace
    with _ | ⟨y, e⟩
  · rw [hsuff] at h
    simp at h
  · rw [hsuff] at h
    have hmem : (l.dropWhile isJsWhitespace).head? = some a := by
      rcases List.dropWhile_suffix (l := (l.dropWhile isJsWhitespace).reverse)
        (p := isJsWhitespace) with ⟨t, ht⟩
      rw [hsuff] at ht
      have : l.dropWhile isJsWhitespace = (y :: e).reverse ++ t.reverse := by
        rw [← List.reverse_reverse (l.dropWhile isJsWhitespace), ← ht]
        rw [List.reverse_append]
      rw [this]
      rcases hrev : (y :: e).reverse with _ | ⟨z, zs⟩
      · simpa using congrArg List.length hrev
      · rw [hrev] at h
        simpa using h
    exact head_dropWhile_ws l a hmem

theorem jsTrim_last_not_ws (l : List Char) (b : Char)
    (h : (jsTrim l).getLast? = some b) : isJsWhitespace b = false := by
  unfold jsTrim at h
  rw [List.getLast?_reverse] at h
  exact head_dropWhile_ws _ b h

theorem jsTrim_of_no_edge_ws (x : List Char)
    (hh : ∀ z, x.head? = some z → isJsWhitespace z = false)
    (hl : ∀ z, x.getLast? = some z → isJsWhitespace z = false) :
    jsTrim x = x := by
  unfold jsTrim
  rw [dropWhile_ws_of_head x hh]
  rw [dropWhile_ws_of_head x.reverse
    (by intro z hz; rw [List.head?_reverse] at hz; exact hl z hz)]
  exact List.reverse_reverse x

theorem jsTrim_idem (l : List Char) : jsTrim (jsTrim l) = jsTrim l :=
  jsTrim_of_no_edge_ws (jsTrim l) (fun z hz => jsTrim_head l z hz)
    (fun z hz => jsTrim_last_not_ws l z hz)

/-- Branch equation: comment start (`--` lookahead outside a string). -/
theorem step_comment_enter (st : SplitState) (p n : Option Char) (c : Char)
    (h : st.inString = false ∧ c = '-' ∧ n = some '-') :
    stepSplit st p c n = { st with current := st.current ++ [c], inComment := true } := by
  simp [stepSplit, handleComments, h.1, h.2.1, h.2.2]

/-- Branch equation: comment end at a newline or carriage return. -/
theorem step_comment_exit (st : SplitState) (p n : Option Char) (c : Char)
    (h1 : ¬(st.inString = false ∧ c = '-' ∧ n = some '-'))
    (h2 : st.inComment = true ∧ (c = '\n' ∨ c = '\r')) :
    stepSplit st p c n = { st with current := st.current ++ [c], inComment := false } := by
  simp [stepSplit, handleComments, h1, h2.1, h2.2]

/-- Branch equation: inert character inside a comment. -/
theorem step_comment_skip (st : SplitState) (p n : Option Char) (c : Char)
    (h1 : ¬(st.inString = false ∧ c = '-' ∧ n = some '-'))
    (h2 : ¬(c = '\n' ∨ c = '\r'))
    (hic : st.inComment = true) :
    stepSplit st p c n = { st with current := st.current ++ [c] } := by
  simp [stepSplit, handleComments, h1, h2, hic]

/-- Branch equation: string start at an unquoted quote character. -/
theorem step_string_enter (st : SplitState) (p n : Option Char) (c : Char)
    (h1 : ¬(st.inString = false ∧ c = '-' ∧ n = some '-'))
    (hic : st.inComment = false)
    (h3 : st.inString = false ∧ (c = '\'' ∨ c = '"')) :
    stepSplit st p c n = { st with current := st.current ++ [c], inString := true, stringChar := some c } := by
  have h1a : ¬(c = '-' ∧ n = some '-') := fun hh => h1 ⟨h3.1, hh⟩
  simp [stepSplit, handleComments, handleStrings, h1a, hic, h3.1, h3.2]

/-- Branch equation: string end at an unescaped matching quote. -/
theorem step_string_exit (st : SplitState) (p n : Option Char) (c : Char)
    (h1 : ¬(st.inString = false ∧ c = '-' ∧ n = some '-'))
    (hic : st.inComment = false)
    (h4 : st.inString = true ∧ some c = st.stringChar ∧ p ≠ some '\\') :
    stepSplit st p c n = { st with current := st.current ++ [c], inString := false, stringChar := none } := by
  simp [stepSplit, handleComments, handleStrings, h1, hic, h4.1, h4.2.1, h4.2.2]

/-- Branch equation: inert character inside a string. -/
theorem step_string_skip (st : SplitState) (p n : Option Char) (c : Char)
    (h1 : ¬(st.inString = false ∧ c = '-' ∧ n = some '-'))
    (hic : st.inComment = false)
    (h4 : ¬(some c = st.stringChar ∧ p ≠ some '\\'))
    (his : st.inString = true) :
    stepSplit st p c n = { st with current := st.current ++ [c] } := by
  simp [stepSplit, handleComments, handleStrings, h1, hic, h4, his]

/-- Branch equation: top-level terminator emits the trimmed buffer. -/
theorem step_push (st : SplitState) (p n : Option Char)
    (h1 : ¬(st.inString = false ∧ ';' = '-' ∧ n = some '-'))
    (hic : st.inComment = false)
    (his : st.inString = false) :
    stepSplit st p ';' n = { st with
      statements := st.statements ++ [jsTrim (st.current ++ [';'])],
      current := [] } := by
  simp [stepSplit, handleComments, handleStrings, h1, hic, his]

/-- Branch equation: ordinary top-level character. -/
theorem step_plain (st : SplitState) (p n : Option Char) (c : Char)
    (h1 : ¬(st.inString = false ∧ c = '-' ∧ n = some '-'))
    (hic : st.inComment = false)
    (h3 : ¬(c = '\'' ∨ c = '"'))
    (his : st.inString = false)
    (h5 : c ≠ ';') :
    stepSplit st p c n = { st with current := st.current ++ [c] } := by
  have h1a : ¬(c = '-' ∧ n = some '-') := fun hh => h1 ⟨his, hh⟩
  simp [stepSplit, handleComments, handleStrings, h1a, hic, h3, his, h5]

theorem scanSql_nil (st : SplitState) (p foll : Option Char) :
    scanSql st p [] foll = st := rfl

theorem scanSql_cons (st : SplitState) (p foll : Option Char) (c : Char)
    (rest : List Char) :
    scanSql st p (c :: rest) foll =
      scanSql (stepSplit st p c (nextOf rest foll)) (some c) rest foll := rfl

theorem nextOf_append (a b : List Char) (foll : Option Char) :
    nextOf (a ++ b) foll = nextOf a (nextOf b foll) := by
  cases a <;> rfl

theorem prevAfter_nil (p : Option Char) : prevAfter [] p = p := rfl

theorem prevAfter_cons (c : Char) (a : List Char) (p : Option Char) :
    prevAfter (c :: a) p = prevAfter a (some c) := by
  cases a with
  | nil => simp [prevAfter]
  | cons d t =>
      have hne : (d :: t) ≠ [] := by simp
      rcases Option.isSome_iff_exists.mp (List.getLast?_isSome.mpr hne) with ⟨x, hx⟩
      unfold prevAfter
      rw [List.getLast?_cons_cons, hx]

theorem handleComments_next_irrel (c : Char) (n n' : Option Char) (i k : Bool)
    (hn : n ≠ some '-') (hn' : n' ≠ some '-') :
    handleComments c n i k = handleComments c n' i k := by
  simp [handleComments, hn, hn']

theorem step_next_irrel (st : SplitState) (p n n' : Option Char) (c : Char)
    (hn : n ≠ some '-') (hn' : n' ≠ some '-') :
    stepSplit st p c n = stepSplit st p c n' := by
  unfold stepSplit
  rw [handleComments_next_irrel c n n' st.inString st.inComment hn hn']

theorem step_prev_irrel (st : SplitState) (p p' n : Option Char) (c : Char)
    (his : st.inString = false) :
    stepSplit st p c n = stepSplit st p' c n := by
  have hs : handleStrings c p st.inString st.stringChar =
      handleStrings c p' st.inString st.stringChar := by
    simp [handleStrings, his]
  unfold stepSplit
  rw [hs]

theorem scan_prev_irrel (st : SplitState) (p p' foll : Option Char)
    (l : List Char) (his : st.inString = false) :
    scanSql st p l foll = scanSql st p' l foll := by
  cases l with
  | nil => rfl
  | cons c rest =>
      rw [scanSql_cons, scanSql_cons, step_prev_irrel st p p' _ c his]

theorem scan_next_irrel (st : SplitState) (p n n' : Option Char)
    (l : List Char) (hn : n ≠ some '-') (hn' : n' ≠ some '-') :
    scanSql st p l n = scanSql st p l n' := by
  induction l generalizing st p with
  | nil => rfl
  | cons c rest ih =>
      cases rest with
      | nil =>
          rw [scanSql_cons, scanSql_cons]
          simp only [nextOf]
          rw [step_next_irrel st p n n' c hn hn']
          rfl
      | cons c2 r2 =>
          rw [scanSql_cons, scanSql_cons]
          exact ih _ _

theorem scan_append (a b : List Char) (st : SplitState) (p foll : Option Char) :
    scanSql st p (a ++ b) foll =
      scanSql (scanSql st p a (nextOf b foll)) (prevAfter a p) b foll := by
  induction a generalizing st p with
  | nil => rfl
  | cons c a' ih =>
      rw [List.cons_append, scanSql_cons, scanSql_cons]
      rw [nextOf_append a' b foll, prevAfter_cons]
      exact ih _ _

theorem good_step (st : SplitState) (p n : Option Char) (c : Char)
    (h : GoodState st) : GoodState (stepSplit st p c n) := by
  unfold GoodState at *
  simp only [stepSplit, handleComments, handleStrings]
  repeat' split
  all_goals simp_all

theorem good_scan (l : List Char) (st : SplitState) (p foll : Option Char)
    (h : GoodState st) : GoodState (scanSql st p l foll) := by
  induction l generalizing st p with
  | nil => exact h
  | cons c rest ih =>
      rw [scanSql_cons]
      exact ih _ _ (good_step st p _ c h)

theorem good_initState : GoodState initState := by
  constructor
  · intro
    rfl
  · exact Or.inl rfl

theorem excl_step (st : SplitState) (p n : Option Char) (c : Char)
    (h : stateExclusive st) : stateExclusive (stepSplit st p c n) := by
  unfold stateExclusive at *
  simp only [stepSplit, handleComments, handleStrings]
  repeat' split
  all_goals simp_all

theorem excl_scan (l : List Char) (st : SplitState) (p foll : Option Char)
    (h : stateExclusive st) : stateExclusive (scanSql st p l foll) := by
  induction l generalizing st p with
  | nil => exact h
  | cons c rest ih =>
      rw [scanSql_cons]
      exact ih _ _ (excl_step st p _ c h)

theorem step_inComment_of_inString (st : SplitState) (p n : Option Char)
    (c : Char) (h1 : st.inString = true) (h2 : st.inComment = false) :
    (stepSplit st p c n).inComment = false := by
  simp only [stepSplit, handleComments, handleStrings]
  repeat' split
  all_goals simp_all

/-- C9: at every character position of the scan at most one of `inString` /
`inComment` holds; a step taken inside a string never enters comment mode;
a step taken inside a comment never changes `inString`. -/
theorem splitSql_state_exclusive :
    (∀ (l : List Char) (i : ℕ),
      ¬((scanSql initState none (l.take i) (nextOf (l.drop i) none)).inString = true ∧
        (scanSql initState none (l.take i) (nextOf (l.drop i) none)).inComment = true)) ∧
    (∀ (st : SplitState) (p : Option Char) (c : Char) (n : Option Char),
      st.inString = true → (stepSplit st p c n).inComment = true →
      st.inComment = true) ∧
    (∀ (st : SplitState) (p : Option Char) (c : Char) (n : Option Char),
      st.inComment = true → (stepSplit st p c n).inString = st.inString) := by
  refine ⟨?_, ?_, ?_⟩
  · intro l i
    exact excl_scan _ initState none _ (by intro h; exact absurd h.1 (by decide))
  · intro st p c n h1 h2
    by_cases hic : st.inComment = true
    · exact hic
    · have hic' : st.inComment = false := by simpa using hic
      rw [step_inComment_of_inString st p n c h1 hic'] at h2
      cases h2
  · intro st p c n h
    simp only [stepSplit, handleComments, handleStrings]
    repeat' split
    all_goals simp_all

/-- Witness for C9: a step from an in-string, in-comment-free state keeps
`inComment` false, and a step inside a comment keeps `inString` unchanged. -/
theorem splitSql_state_exclusive_witness :
    (⟨[], [], true, true, none⟩ : SplitState).inComment = true :=
  splitSql_state_exclusive.2.1 ⟨[], [], true, true, none⟩ none 'x' none rfl (by decide)

theorem prevAfter_of_ne_nil (a b : List Char) (q q' : Option Char) (hb : b ≠ []) :
    prevAfter (a ++ b) q = prevAfter b q' := by
  rcases Option.isSome_iff_exists.mp (List.getLast?_isSome.mpr hb) with ⟨x, hx⟩
  unfold prevAfter
  rw [List.getLast?_append_of_ne_nil a hb, hx]

theorem prevAfter_concat (a : List Char) (c : Char) (q : Option Char) :
    prevAfter (a ++ [c]) q = some c := by
  unfold prevAfter
  rw [List.getLast?_append_of_ne_nil a (by simp), List.getLast?_singleton]

theorem curScan_good (st : SplitState) (nx : Option Char) (h : CurScan st nx) :
    GoodState st := by
  have h0 := h [] none
  have hg := good_scan st.current ⟨[], [], false, false, none⟩ none nx good_initState
  rw [h0] at hg
  exact ⟨hg.1, hg.2⟩

theorem curScan_nil_flags (st : SplitState) (nx : Option Char) (h : CurScan st nx)
    (hc : st.current = []) :
    st.inString = false ∧ st.inComment = false ∧ st.stringChar = none := by
  have h0 := h [] none
  rw [hc, scanSql_nil] at h0
  simp only [SplitState.mk.injEq] at h0
  exact ⟨h0.2.2.1.symm, h0.2.2.2.1.symm, h0.2.2.2.2.symm⟩

/-- Preservation of `MainInv` by a non-emitting step: if both the tracked
scan and the replay scan take the same flag transition, the invariant
carries over with the same segment list. -/
theorem mainInv_of_steps (processed : List Char) (st : SplitState) (c : Char)
    (n : Option Char) (i2 k2 : Bool) (q2 : Option Char)
    (hinv : MainInv processed st (some c))
    (hstep : stepSplit st (prevAfter processed none) c n =
      ⟨st.statements, st.current ++ [c], i2, k2, q2⟩)
    (hrep : ∀ (ss : List (List Char)) (p' : Option Char),
      stepSplit ⟨ss, st.current, st.inString, st.inComment, st.stringChar⟩
          (prevAfter st.current p') c n =
        ⟨ss, st.current ++ [c], i2, k2, q2⟩) :
    MainInv (processed ++ [c]) (stepSplit st (prevAfter processed none) c n) n := by
  obtain ⟨segs, hdec, hstm, hsegs, hcur⟩ := hinv
  rw [hstep]
  refine ⟨segs, ?_, ?_, hsegs, ?_⟩
  · show processed ++ [c] = segs.flatten ++ (st.current ++ [c])
    rw [hdec, List.append_assoc]
  · exact hstm
  · show ∀ (ss : List (List Char)) (p' : Option Char),
      scanSql ⟨ss, [], false, false, none⟩ p' (st.current ++ [c]) n =
        ⟨ss, st.current ++ [c], i2, k2, q2⟩
    intro ss p'
    rw [scan_append st.current [c] _ p' n]
    have hn : nextOf [c] n = some c := rfl
    rw [hn, hcur ss p']
    exact hrep ss p'

/-- Preservation of `MainInv` by one scan step. -/
theorem mainInv_step (processed : List Char) (st : SplitState) (c : Char)
    (n : Option Char) (hinv : MainInv processed st (some c)) :
    MainInv (processed ++ [c]) (stepSplit st (prevAfter processed none) c n) n := by
  have hgood : GoodState st := by
    obtain ⟨_, _, _, _, hcur⟩ := hinv
    exact curScan_good st (some c) hcur
  by_cases h1 : st.inString = false ∧ c = '-' ∧ n = some '-'
  · exact mainInv_of_steps processed st c n st.inString true st.stringChar hinv
      (step_comment_enter st _ n c h1) (fun ss p' => step_comment_enter _ _ n c h1)
  · by_cases h2 : st.inComment = true ∧ (c = '\n' ∨ c = '\r')
    · exact mainInv_of_steps processed st c n st.inString false st.stringChar hinv
        (step_comment_exit st _ n c h1 h2) (fun ss p' => step_comment_exit _ _ n c h1 h2)
    · by_cases hic : st.inComment = true
      · have hnl : ¬(c = '\n' ∨ c = '\r') := fun hh => h2 ⟨hic, hh⟩
        exact mainInv_of_steps processed st c n st.inString st.inComment st.stringChar hinv
          (step_comment_skip st _ n c h1 hnl hic)
          (fun ss p' => step_comment_skip _ _ n c h1 hnl hic)
      · have hic' : st.inComment = false := by simpa using hic
        by_cases h3 : st.inString = false ∧ (c = '\'' ∨ c = '"')
        · exact mainInv_of_steps processed st c n true st.inComment (some c) hinv
            (step_string_enter st _ n c h1 hic' h3)
            (fun ss p' => step_string_enter _ _ n c h1 hic' h3)
        · by_cases h4 : st.inString = true ∧ some c = st.stringChar ∧
              prevAfter processed none ≠ some '\\'
          · have hcne : st.current ≠ [] := by
              intro hnil
              obtain ⟨_, _, _, _, hcur⟩ := hinv
              rcases curScan_nil_flags st (some c) hcur hnil with ⟨hf, _, _⟩
              rw [h4.1] at hf
              cases hf
            obtain ⟨segs, hdec, hstm, hsegs, hcur⟩ := hinv
            have hpa : ∀ p' : Option Char,
                prevAfter st.current p' = prevAfter processed none := by
              intro p'
              rw [hdec]
              exact (prevAfter_of_ne_nil segs.flatten st.current none p' hcne).symm
            refine mainInv_of_steps processed st c n false st.inComment none
              ⟨segs, hdec, hstm, hsegs, hcur⟩
              (step_string_exit st _ n c h1 hic' h4) ?_
            intro ss p'
            exact step_string_exit _ _ n c h1 hic'
              ⟨h4.1, h4.2.1, by rw [hpa p']; exact h4.2.2⟩
          · by_cases his : st.inString = true
            · have hcne : st.current ≠ [] := by
                intro hnil
                obtain ⟨_, _, _, _, hcur⟩ := hinv
                rcases curScan_nil_flags st (some c) hcur hnil with ⟨hf, _, _⟩
                rw [his] at hf
                cases hf
              obtain ⟨segs, hdec, hstm, hsegs, hcur⟩ := hinv
              have hpa : ∀ p' : Option Char,
                  prevAfter st.current p' = prevAfter processed none := by
                intro p'
                rw [hdec]
                exact (prevAfter_of_ne_nil segs.flatten st.current none p' hcne).symm
              have h4a : ¬(some c = st.stringChar ∧ prevAfter processed none ≠ some '\\') :=
                fun hh => h4 ⟨his, hh⟩
              refine mainInv_of_steps processed st c n st.inString st.inComment st.stringChar
                ⟨segs, hdec, hstm, hsegs, hcur⟩
                (step_string_skip st _ n c h1 hic' h4a his) ?_
              intro ss p'
              exact step_string_skip _ _ n c h1 hic' (by rw [hpa p']; exact h4a) his
            · have his' : st.inString = false := by simpa using his
              by_cases h5 : c = ';'
              · -- the emitting branch
                subst h5
                obtain ⟨segs, hdec, hstm, hsegs, hcur⟩ := hinv
                have hq : st.stringChar = none := hgood.1 his'
                have hnd : ¬(st.inString = false ∧ (';' : Char) = '-' ∧ n = some '-') :=
                  fun hh => absurd hh.2.1 (by decide)
                have hstep := step_push st (prevAfter processed none) n hnd hic' his'
                rw [hstep]
                refine ⟨segs ++ [st.current ++ [';']], ?_, ?_, ?_, ?_⟩
                · show processed ++ [';'] =
                    (segs ++ [st.current ++ [';']]).flatten ++ []
                  rw [List.flatten_append, hdec]
                  simp [List.append_assoc]
                · show st.statements ++ [jsTrim (st.current ++ [';'])] =
                    (segs ++ [st.current ++ [';']]).map jsTrim
                  rw [List.map_append, hstm]
                  rfl
                · intro s hs
                  rw [List.mem_append] at hs
                  rcases hs with hs | hs
                  · exact hsegs s hs
                  · rw [List.mem_singleton] at hs
                    subst hs
                    constructor
                    · rw [List.getLast?_append_of_ne_nil st.current (by simp)]
                      rfl
                    · intro ss p' foll
                      rw [scan_append st.current [';'] _ p' foll]
                      have hn : nextOf [';'] foll = some ';' := rfl
                      rw [hn, hcur ss p']
                      have hrep := step_push
                        ⟨ss, st.current, st.inString, st.inComment, st.stringChar⟩
                        (prevAfter st.current p') foll
                        (fun hh => absurd hh.2.1 (by decide)) hic' his'
                      have hsing : scanSql
                          ⟨ss, st.current, st.inString, st.inComment, st.stringChar⟩
                          (prevAfter st.current p') [';'] foll =
                          stepSplit ⟨ss, st.current, st.inString, st.inComment, st.stringChar⟩
                            (prevAfter st.current p') ';' foll := rfl
                      rw [hsing, hrep]
                      rw [his', hic', hq]
                · show ∀ (ss : List (List Char)) (p' : Option Char),
                    scanSql ⟨ss, [], false, false, none⟩ p' ([] : List Char) n =
                      ⟨ss, [], st.inString, st.inComment, st.stringChar⟩
                  intro ss p'
                  rw [scanSql_nil, his', hic', hq]
              · have h3a : ¬(c = '\'' ∨ c = '"') := fun hh => h3 ⟨his', hh⟩
                exact mainInv_of_steps processed st c n st.inString st.inComment st.stringChar hinv
                  (step_plain st _ n c h1 hic' h3a his' h5)
                  (fun ss p' => step_plain _ _ n c h1 hic' h3a his' h5)

/-- `MainInv` is preserved along the whole scan. -/
theorem mainInv_scan (rest : List Char) (processed : List Char) (st : SplitState)
    (foll : Option Char) (h : MainInv processed st (nextOf rest foll)) :
    MainInv (processed ++ rest) (scanSql st (prevAfter processed none) rest foll) foll := by
  induction rest generalizing processed st with
  | nil => simpa using h
  | cons c rest' ih =>
      rw [scanSql_cons]
      have hstep : MainInv (processed ++ [c])
          (stepSplit st (prevAfter processed none) c (nextOf rest' foll))
          (nextOf rest' foll) :=
        mainInv_step processed st c (nextOf rest' foll) h
      have hrec := ih (processed ++ [c]) _ hstep
      rw [prevAfter_concat processed c none] at hrec
      rw [List.append_assoc] at hrec
      simpa using hrec

/-- The characterization of a complete scan from the initial state. -/
theorem mainInv_run (l : List Char) :
    MainInv l (scanSql initState none l none) none := by
  have h0 : MainInv [] initState (nextOf l none) := by
    refine ⟨[], rfl, rfl, ?_, ?_⟩
    · intro s hs
      cases hs
    · intro ss p
      rfl
  have h := mainInv_scan l [] initState none h0
  simpa using h

/-- The emitted segment trims keep their final terminator. -/
theorem seg_trim_last (s : List Char) (h : s.getLast? = some ';') :
    (jsTrim s).getLast? = some ';' ∧ jsTrim s ≠ [] :=
  jsTrim_getLast s ';' h (by decide)

/-- C5: every element of the split is non-empty and is a contiguous
substring (infix) of the input, and every element except possibly the
last ends with the terminator `;`. -/
theorem splitSql_elements_shape :
    ∀ (l : List Char),
      (∀ x, x ∈ splitChars l → x ≠ [] ∧ x <:+: l) ∧
      (∀ x, x ∈ (splitChars l).dropLast → x.getLast? = some ';') := by
  intro l
  obtain ⟨segs, hdec, hstm, hsegs, _⟩ := mainInv_run l
  have hmem : ∀ x, x ∈ (scanSql initState none l none).statements →
      x ≠ [] ∧ x <:+: l ∧ x.getLast? = some ';' := by
    intro x hx
    rw [hstm] at hx
    rcases List.mem_map.mp hx with ⟨s, hs, rfl⟩
    rcases hsegs s hs with ⟨hlast, _⟩
    rcases seg_trim_last s hlast with ⟨hl1, hl2⟩
    refine ⟨hl2, ?_, hl1⟩
    have h1 : jsTrim s <:+: s := jsTrim_within s
    have h2 : s <:+: segs.flatten := List.infix_of_mem_flatten hs
    have h3 : segs.flatten <:+: l := by
      rw [hdec]
      exact ⟨[], (scanSql initState none l none).current, by simp⟩
    exact h1.trans (h2.trans h3)
  have hfin : jsTrim (scanSql initState none l none).current <:+: l := by
    have h1 : (scanSql initState none l none).current <:+: l :=
      ⟨segs.flatten, [], by rw [List.append_nil]; exact hdec.symm⟩
    exact (jsTrim_within _).trans h1
  constructor
  · intro x hx
    unfold splitChars at hx
    by_cases hc : jsTrim (scanSql initState none l none).current = []
    · rw [if_pos hc] at hx
      rcases hmem x hx with ⟨h1, h2, _⟩
      exact ⟨h1, h2⟩
    · rw [if_neg hc] at hx
      rw [List.mem_append] at hx
      rcases hx with hx | hx
      · rcases hmem x hx with ⟨h1, h2, _⟩
        exact ⟨h1, h2⟩
      · rw [List.mem_singleton] at hx
        subst hx
        exact ⟨hc, hfin⟩
  · intro x hx
    unfold splitChars at hx
    by_cases hc : jsTrim (scanSql initState none l none).current = []
    · rw [if_pos hc] at hx
      have hx' : x ∈ (scanSql initState none l none).statements :=
        (List.dropLast_sublist _).subset hx
      exact (hmem x hx').2.2
    · rw [if_neg hc, List.dropLast_concat] at hx
      exact (hmem x hx).2.2

/-- Witness for C5 at the input `"A; B"`. -/
theorem splitSql_elements_shape_witness :
    (['A', ';'] ≠ [] ∧ ['A', ';'] <:+: "A; B".data) ∧
      ['A', ';'].getLast? = some ';' :=
  ⟨(splitSql_elements_shape "A; B".data).1 ['A', ';'] (by decide),
   (splitSql_elements_shape "A; B".data).2 ['A', ';'] (by decide)⟩

theorem segs_interleave (segs : List (List Char))
    (h : ∀ s ∈ segs, s.getLast? = some ';') (tail : List Char)
    (htail : allWs tail) :
    ∃ (ws0 : List Char) (ws : List (List Char)),
      allWs ws0 ∧ ws.length = segs.length ∧ (∀ w ∈ ws, allWs w) ∧
      segs.flatten ++ tail = ws0 ++ wsInterleave (segs.map jsTrim) ws := by
  induction segs with
  | nil =>
      refine ⟨tail, [], htail, rfl, ?_, ?_⟩
      · intro w hw
        cases hw
      · simp [wsInterleave]
  | cons s rest ih =>
      have hs := h s (by simp)
      have hrest : ∀ x ∈ rest, x.getLast? = some ';' := fun x hx => h x (by simp [hx])
      rcases ih hrest with ⟨w0, ws, hw0, hlen, hws, heq⟩
      refine ⟨s.takeWhile isJsWhitespace, w0 :: ws, ?_, by simp [hlen], ?_, ?_⟩
      · intro ch hch
        exact List.mem_takeWhile_imp hch
      · intro w hw
        rcases List.mem_cons.mp hw with rfl | hw
        · exact hw0
        · exact hws w hw
      · have hsplit : s = s.takeWhile isJsWhitespace ++ jsTrim s := by
          rw [jsTrim_eq_dropWhile s ';' hs (by decide)]
          exact (List.takeWhile_append_dropWhile isJsWhitespace s).symm
        rw [List.flatten_cons, List.map_cons]
        conv_lhs => rw [hsplit]
        unfold wsInterleave
        rw [List.zipWith_cons_cons, List.flatten_cons]
        unfold wsInterleave at heq
        simp only [List.append_assoc]
        rw [heq]

/-- C2 (amended): the concatenation of the emitted statements, each already
carrying its terminator where it has one, reconstructs the input up to the
whitespace trimmed around each statement. -/
theorem splitSql_reconstruction :
    ∀ l : List Char, ReconstructsModWs (splitChars l) l := by
  intro l
  obtain ⟨segs, hdec, hstm, hsegs, _⟩ := mainInv_run l
  rcases hstate : scanSql initState none l none with ⟨stmts, B, i1, k1, q1⟩
  rw [hstate] at hdec hstm
  simp only at hdec hstm
  have hsplit : splitChars l = if jsTrim B = [] then stmts else stmts ++ [jsTrim B] := by
    unfold splitChars
    rw [hstate]
  by_cases hc : jsTrim B = []
  · have hBws : allWs B := allWs_of_jsTrim_nil B hc
    rcases segs_interleave segs (fun s hs => (hsegs s hs).1) B hBws with
      ⟨w0, ws, hw0, hlen, hws, heq⟩
    rw [hsplit, if_pos hc, hstm]
    exact ⟨w0, ws, hw0, by rw [hlen]; simp, hws, by rw [hdec, heq]⟩
  · rcases jsTrim_decomp B with ⟨a, b, ha, hb, hB⟩
    rcases segs_interleave segs (fun s hs => (hsegs s hs).1) a ha with
      ⟨w0, ws, hw0, hlen, hws, heq⟩
    rw [hsplit, if_neg hc, hstm]
    refine ⟨w0, ws ++ [b], hw0, ?_, ?_, ?_⟩
    · simp [hlen]
    · intro w hw
      rcases List.mem_append.mp hw with hw | hw
      · exact hws w hw
      · rw [List.mem_singleton] at hw
        subst hw
        exact hb
    · unfold wsInterleave
      rw [List.zipWith_append _ _ _ _ _ (by rw [hlen]; simp)]
      rw [List.flatten_append]
      rw [hdec]
      conv_lhs => rw [hB]
      unfold wsInterleave at heq
      simp only [List.zipWith_cons_cons, List.zipWith_nil_right, List.flatten_cons,
        List.flatten_nil, List.append_nil]
      simp only [← List.append_assoc]
      rw [heq]

/-- C2: read literally, re-appending the terminator `;` to each emitted
statement duplicates terminators, and the result no longer reconstructs
the input modulo whitespace: refuted at the input `"A;"`. -/
theorem splitSql_reconstruction_claim_false :
    ¬ ReconstructsModWs ((splitChars "A;".data).map (fun s => s ++ [';'])) "A;".data := by
  intro h
  obtain ⟨ws0, ws, hw0, hlen, hws, heq⟩ := h
  have hx : (splitChars "A;".data).map (fun s => s ++ [';']) = [['A', ';', ';']] := by decide
  rw [hx] at hlen heq
  have hlen2 : ws.length = 1 := by rw [hlen]; rfl
  rcases List.length_eq_one.mp hlen2 with ⟨w, rfl⟩
  have hL := congrArg List.length heq
  have h2 : ("A;".data).length = 2 := by decide
  rw [h2] at hL
  simp [wsInterleave, List.length_append] at hL
  omega

theorem splitState_ext (s t : SplitState) (h1 : s.statements = t.statements)
    (h2 : s.current = t.current) (h3 : s.inString = t.inString)
    (h4 : s.inComment = t.inComment) (h5 : s.stringChar = t.stringChar) :
    s = t := by
  cases s
  cases t
  simp_all

/-- Any scan step either only appends the character to the buffer, or emits
the trimmed buffer and clears it. -/
theorem step_cases (st : SplitState) (p n : Option Char) (c : Char) :
    ((stepSplit st p c n).statements = st.statements ∧
      (stepSplit st p c n).current = st.current ++ [c]) ∨
    ((stepSplit st p c n).statements = st.statements ++ [jsTrim (st.current ++ [c])] ∧
      (stepSplit st p c n).current = []) := by
  simp only [stepSplit, handleComments, handleStrings]
  repeat' split
  all_goals simp_all

theorem scan_statements_mono (l : List Char) :
    ∀ (st : SplitState) (p foll : Option Char),
      ∃ d, (scanSql st p l foll).statements = st.statements ++ d := by
  induction l with
  | nil =>
      intro st p foll
      exact ⟨[], by simp [scanSql_nil]⟩
  | cons c rest ih =>
      intro st p foll
      rw [scanSql_cons]
      rcases ih (stepSplit st p c (nextOf rest foll)) (some c) foll with ⟨d, hd⟩
      rcases step_cases st p (nextOf rest foll) c with ⟨h1, _⟩ | ⟨h1, _⟩
      · exact ⟨d, by rw [hd, h1]⟩
      · exact ⟨[jsTrim (st.current ++ [c])] ++ d, by rw [hd, h1, List.append_assoc]⟩

/-- If a scan emits nothing, its buffer accumulates exactly the scanned
characters. -/
theorem scan_no_push_current (l : List Char) :
    ∀ (st : SplitState) (p foll : Option Char),
      (scanSql st p l foll).statements = st.statements →
      (scanSql st p l foll).current = st.current ++ l := by
  induction l with
  | nil =>
      intro st p foll _
      simp [scanSql_nil]
  | cons c rest ih =>
      intro st p foll h
      rw [scanSql_cons] at h ⊢
      rcases step_cases st p (nextOf rest foll) c with ⟨h1, h2⟩ | ⟨h1, h2⟩
      · have hstm : (scanSql (stepSplit st p c (nextOf rest foll)) (some c) rest foll).statements
            = (stepSplit st p c (nextOf rest foll)).statements := by
          rw [h, h1]
        have hrest := ih (stepSplit st p c (nextOf rest foll)) (some c) foll hstm
        rw [hrest, h2, List.append_assoc]
        rfl
      · exfalso
        rcases scan_statements_mono rest (stepSplit st p c (nextOf rest foll)) (some c) foll
          with ⟨d, hd⟩
        rw [hd, h1] at h
        have hlen := congrArg List.length h
        simp [List.length_append] at hlen

/-- Scanning whitespace from a normal state only grows the buffer. -/
theorem ws_scan_normal (w : List Char) :
    ∀ (_ : allWs w) (ss : List (List Char)) (cur : List Char) (p foll : Option Char),
      scanSql ⟨ss, cur, false, false, none⟩ p w foll = ⟨ss, cur ++ w, false, false, none⟩ := by
  induction w with
  | nil =>
      intro _ ss cur p foll
      simp [scanSql_nil]
  | cons a w' ih =>
      intro hw ss cur p foll
      have ha : isJsWhitespace a = true := hw a (by simp)
      obtain ⟨hd, hq1, hq2, hsemi⟩ := wsChar_ne a ha
      have hstep := step_plain ⟨ss, cur, false, false, none⟩ p (nextOf w' foll) a
        (fun hh => hd hh.2.1) rfl
        (fun hh => hh.elim (fun h => hq1 h) (fun h => hq2 h)) rfl hsemi
      rw [scanSql_cons, hstep]
      exact (ih (fun x hx => hw x (by simp [hx])) ss (cur ++ [a]) (some a) foll).trans
        (by simp [List.append_assoc])

/-- Any character other than the terminator leaves the emitted statements
unchanged and is appended to the buffer. -/
theorem step_keep_of_ne_semi (st : SplitState) (p n : Option Char) (c : Char)
    (h : c ≠ ';') :
    (stepSplit st p c n).statements = st.statements ∧
    (stepSplit st p c n).current = st.current ++ [c] := by
  simp only [stepSplit, handleComments, handleStrings]
  repeat' split
  all_goals simp_all

/-- Scanning whitespace from any state never emits and only grows the
buffer. -/
theorem ws_scan_keep (b : List Char) :
    ∀ (_ : allWs b) (st : SplitState) (p foll : Option Char),
      (scanSql st p b foll).statements = st.statements ∧
      (scanSql st p b foll).current = st.current ++ b := by
  induction b with
  | nil =>
      intro _ st p foll
      simp [scanSql_nil]
  | cons c rest ih =>
      intro hb st p foll
      have hc := hb c (by simp)
      obtain ⟨_, _, _, hsemi⟩ := wsChar_ne c hc
      rw [scanSql_cons]
      rcases step_keep_of_ne_semi st p (nextOf rest foll) c hsemi with ⟨h1, h2⟩
      rcases ih (fun x hx => hb x (by simp [hx])) (stepSplit st p c (nextOf rest foll))
        (some c) foll with ⟨g1, g2⟩
      constructor
      · rw [g1, h1]
      · rw [g2, h2, List.append_assoc]
        rfl

/-- One step from two states that differ only by a whitespace prefix of the
buffer: both take the same transition, and the emitted statements agree
because trimming removes the whitespace prefix. -/
theorem step_ws_buffer (ss : List (List Char)) (w cur : List Char) (hw : allWs w)
    (i k : Bool) (q : Option Char) (p n : Option Char) (c : Char) :
    ∃ w2, allWs w2 ∧
      stepSplit ⟨ss, w ++ cur, i, k, q⟩ p c n =
        ⟨(stepSplit ⟨ss, cur, i, k, q⟩ p c n).statements,
         w2 ++ (stepSplit ⟨ss, cur, i, k, q⟩ p c n).current,
         (stepSplit ⟨ss, cur, i, k, q⟩ p c n).inString,
         (stepSplit ⟨ss, cur, i, k, q⟩ p c n).inComment,
         (stepSplit ⟨ss, cur, i, k, q⟩ p c n).stringChar⟩ := by
  by_cases h1 : i = false ∧ c = '-' ∧ n = some '-'
  · refine ⟨w, hw, ?_⟩
    rw [step_comment_enter ⟨ss, w ++ cur, i, k, q⟩ p n c h1,
        step_comment_enter ⟨ss, cur, i, k, q⟩ p n c h1]
    simp [List.append_assoc]
  · by_cases h2 : k = true ∧ (c = '\n' ∨ c = '\r')
    · refine ⟨w, hw, ?_⟩
      rw [step_comment_exit ⟨ss, w ++ cur, i, k, q⟩ p n c h1 h2,
          step_comment_exit ⟨ss, cur, i, k, q⟩ p n c h1 h2]
      simp [List.append_assoc]
    · by_cases hic : k = true
      · have hnl : ¬(c = '\n' ∨ c = '\r') := fun hh => h2 ⟨hic, hh⟩
        refine ⟨w, hw, ?_⟩
        rw [step_comment_skip ⟨ss, w ++ cur, i, k, q⟩ p n c h1 hnl hic,
            step_comment_skip ⟨ss, cur, i, k, q⟩ p n c h1 hnl hic]
        simp [List.append_assoc]
      · have hic' : k = false := by simpa using hic
        by_cases h3 : i = false ∧ (c = '\'' ∨ c = '"')
        · refine ⟨w, hw, ?_⟩
          rw [step_string_enter ⟨ss, w ++ cur, i, k, q⟩ p n c h1 hic' h3,
              step_string_enter ⟨ss, cur, i, k, q⟩ p n c h1 hic' h3]
          simp [List.append_assoc]
        · by_cases h4 : i = true ∧ some c = q ∧ p ≠ some '\\'
          · refine ⟨w, hw, ?_⟩
            rw [step_string_exit ⟨ss, w ++ cur, i, k, q⟩ p n c h1 hic' h4,
                step_string_exit ⟨ss, cur, i, k, q⟩ p n c h1 hic' h4]
            simp [List.append_assoc]
          · by_cases his : i = true
            · have h4a : ¬(some c = q ∧ p ≠ some '\\') := fun hh => h4 ⟨his, hh⟩
              refine ⟨w, hw, ?_⟩
              rw [step_string_skip ⟨ss, w ++ cur, i, k, q⟩ p n c h1 hic' h4a his,
                  step_string_skip ⟨ss, cur, i, k, q⟩ p n c h1 hic' h4a his]
              simp [List.append_assoc]
            · have his' : i = false := by simpa using his
              by_cases h5 : c = ';'
              · subst h5
                refine ⟨[], ?_, ?_⟩
                · intro x hx
                  cases hx
                rw [step_push ⟨ss, w ++ cur, i, k, q⟩ p n
                      (fun hh => absurd hh.2.1 (by decide)) hic' his',
                    step_push ⟨ss, cur, i, k, q⟩ p n
                      (fun hh => absurd hh.2.1 (by decide)) hic' his']
                simp [List.append_assoc, jsTrim_ws_append w (cur ++ [';']) hw]
              · have h3a : ¬(c = '\'' ∨ c = '"') := fun hh => h3 ⟨his', hh⟩
                refine ⟨w, hw, ?_⟩
                rw [step_plain ⟨ss, w ++ cur, i, k, q⟩ p n c h1 hic' h3a his' h5,
                    step_plain ⟨ss, cur, i, k, q⟩ p n c h1 hic' h3a his' h5]
                simp [List.append_assoc]

/-- Scanning from two states that differ only by a whitespace prefix of the
buffer yields the same statements and flags, and buffers again differing
only by a whitespace prefix. -/
theorem scan_ws_buffer (l : List Char) :
    ∀ (ss : List (List Char)) (w cur : List Char), allWs w →
    ∀ (i k : Bool) (q : Option Char) (p foll : Option Char),
      ∃ w2, allWs w2 ∧
        scanSql ⟨ss, w ++ cur, i, k, q⟩ p l foll =
          ⟨(scanSql ⟨ss, cur, i, k, q⟩ p l foll).statements,
           w2 ++ (scanSql ⟨ss, cur, i, k, q⟩ p l foll).current,
           (scanSql ⟨ss, cur, i, k, q⟩ p l foll).inString,
           (scanSql ⟨ss, cur, i, k, q⟩ p l foll).inComment,
           (scanSql ⟨ss, cur, i, k, q⟩ p l foll).stringChar⟩ := by
  induction l with
  | nil =>
      intro ss w cur hw i k q p foll
      exact ⟨w, hw, by simp [scanSql_nil]⟩
  | cons c rest ih =>
      intro ss w cur hw i k q p foll
      rw [scanSql_cons, scanSql_cons]
      rcases step_ws_buffer ss w cur hw i k q p (nextOf rest foll) c with ⟨w2, hw2, hstep⟩
      rw [hstep]
      exact ih (stepSplit ⟨ss, cur, i, k, q⟩ p c (nextOf rest foll)).statements w2
        (stepSplit ⟨ss, cur, i, k, q⟩ p c (nextOf rest foll)).current hw2
        (stepSplit ⟨ss, cur, i, k, q⟩ p c (nextOf rest foll)).inString
        (stepSplit ⟨ss, cur, i, k, q⟩ p c (nextOf rest foll)).inComment
        (stepSplit ⟨ss, cur, i, k, q⟩ p c (nextOf rest foll)).stringChar
        (some c) foll

/-- A trimmed segment replays exactly like the segment itself: scanning it
from a normal empty-buffer state emits it and returns to that state. -/
theorem core_scans (seg : List Char) (hlast : seg.getLast? = some ';')
    (hseg : SegScans seg) (ss : List (List Char)) (p foll : Option Char) :
    scanSql ⟨ss, [], false, false, none⟩ p (jsTrim seg) foll =
      ⟨ss ++ [jsTrim seg], [], false, false, none⟩ := by
  have hsplitseg : seg = seg.takeWhile isJsWhitespace ++ jsTrim seg := by
    rw [jsTrim_eq_dropWhile seg ';' hlast (by decide)]
    exact (List.takeWhile_append_dropWhile isJsWhitespace seg).symm
  have hws : allWs (seg.takeWhile isJsWhitespace) :=
    fun ch hch => List.mem_takeWhile_imp hch
  have hrun := hseg ss p foll
  conv at hrun => lhs; rw [hsplitseg]
  rw [scan_append (seg.takeWhile isJsWhitespace) (jsTrim seg) _ p foll] at hrun
  rw [ws_scan_normal _ hws ss [] p _] at hrun
  simp only [List.nil_append] at hrun
  rcases scan_ws_buffer (jsTrim seg) ss (seg.takeWhile isJsWhitespace) [] hws
    false false none (prevAfter (seg.takeWhile isJsWhitespace) p) foll with ⟨w2, _, hbuf⟩
  simp only [List.append_nil] at hbuf
  rw [hbuf] at hrun
  simp only [SplitState.mk.injEq] at hrun
  obtain ⟨e1, e2, e3, e4, e5⟩ := hrun
  have hcur0 : (scanSql ⟨ss, [], false, false, none⟩
      (prevAfter (seg.takeWhile isJsWhitespace) p) (jsTrim seg) foll).current = [] :=
    (List.append_eq_nil.mp e2).2
  rw [scan_prev_irrel ⟨ss, [], false, false, none⟩ p
    (prevAfter (seg.takeWhile isJsWhitespace) p) foll (jsTrim seg) rfl]
  exact splitState_ext _ _ e1 hcur0 e3 e4 e5

/-- Replaying the emitted statements of the processed segments in order:
each is consumed as a whole statement, leaving any `tail` to scan from a
normal empty-buffer state. -/
theorem replay_segs (segs : List (List Char)) :
    (∀ s ∈ segs, s.getLast? = some ';' ∧ SegScans s) →
    ∀ (ss : List (List Char)) (p foll : Option Char) (tail : List Char),
      scanSql ⟨ss, [], false, false, none⟩ p ((segs.map jsTrim).flatten ++ tail) foll =
        scanSql ⟨ss ++ segs.map jsTrim, [], false, false, none⟩ none tail foll := by
  induction segs with
  | nil =>
      intro _ ss p foll tail
      simp only [List.map_nil, List.flatten_nil, List.nil_append, List.append_nil]
      exact scan_prev_irrel _ p none foll tail rfl
  | cons s rest ih =>
      intro h ss p foll tail
      simp only [List.map_cons, List.flatten_cons, List.append_assoc]
      rw [scan_append (jsTrim s) ((rest.map jsTrim).flatten ++ tail) _ p foll]
      rw [core_scans s (h s (by simp)).1 (h s (by simp)).2 ss p _]
      rw [ih (fun x hx => h x (by simp [hx])) (ss ++ [jsTrim s]) _ foll tail]
      rw [List.append_assoc]
      rfl

theorem splitChars_eq (l : List Char) :
    splitChars l =
      if jsTrim (scanSql initState none l none).current = []
      then (scanSql initState none l none).statements
      else (scanSql initState none l none).statements ++
        [jsTrim (scanSql initState none l none).current] := rfl

/-- C8: re-splitting is idempotent -- concatenating the emitted statements
(each already carrying its original terminator) and splitting again yields
the same sequence. -/
theorem splitSql_idempotent :
    ∀ l : List Char, splitChars ((splitChars l).flatten) = splitChars l := by
  intro l
  obtain ⟨segs, _, hstm0, hsegs, hcur0⟩ := mainInv_run l
  rcases hstate : scanSql initState none l none with ⟨stmts, B, i1, k1, q1⟩
  rw [hstate] at hstm0 hcur0
  have hstm : stmts = segs.map jsTrim := hstm0
  have hsc : splitChars l = if jsTrim B = [] then stmts else stmts ++ [jsTrim B] := by
    rw [splitChars_eq, hstate]
  by_cases hc : jsTrim B = []
  · rw [hsc, if_pos hc, hstm]
    have hrep2 : scanSql initState none ((segs.map jsTrim).flatten) none =
        ⟨segs.map jsTrim, [], false, false, none⟩ := by
      have h := replay_segs segs hsegs [] none none []
      rw [List.append_nil, scanSql_nil] at h
      simpa using h
    rw [splitChars_eq, hrep2]
    simp [jsTrim]
  · rw [hsc, if_neg hc, hstm]
    rcases jsTrim_decomp B with ⟨a, b, ha, hb, hBdec⟩
    have hcurA : scanSql ⟨segs.map jsTrim, [], false, false, none⟩ none B none =
        ⟨segs.map jsTrim, B, i1, k1, q1⟩ := hcur0 (segs.map jsTrim) none
    conv at hcurA => lhs; rw [hBdec, List.append_assoc]
    rw [scan_append a (jsTrim B ++ b) _ none none] at hcurA
    rw [ws_scan_normal a ha (segs.map jsTrim) [] none _] at hcurA
    simp only [List.nil_append] at hcurA
    rw [scan_append (jsTrim B) b _ _ none] at hcurA
    rcases ws_scan_keep b hb
      (scanSql ⟨segs.map jsTrim, a, false, false, none⟩ (prevAfter a none) (jsTrim B)
        (nextOf b none))
      (prevAfter (jsTrim B) (prevAfter a none)) none with ⟨g1, g2⟩
    have hMstm : (scanSql ⟨segs.map jsTrim, a, false, false, none⟩ (prevAfter a none)
        (jsTrim B) (nextOf b none)).statements = segs.map jsTrim := by
      have hh := congrArg SplitState.statements hcurA
      rw [g1] at hh
      exact hh
    rcases scan_ws_buffer (jsTrim B) (segs.map jsTrim) a [] ha false false none
      (prevAfter a none) (nextOf b none) with ⟨w2, _, hbuf⟩
    simp only [List.append_nil] at hbuf
    have hRstm : (scanSql ⟨segs.map jsTrim, [], false, false, none⟩ (prevAfter a none)
        (jsTrim B) (nextOf b none)).statements = segs.map jsTrim := by
      have hh := congrArg SplitState.statements hbuf
      rw [hh] at hMstm
      exact hMstm
    have hRcur : (scanSql ⟨segs.map jsTrim, [], false, false, none⟩ (prevAfter a none)
        (jsTrim B) (nextOf b none)).current = jsTrim B := by
      have h := scan_no_push_current (jsTrim B)
        ⟨segs.map jsTrim, [], false, false, none⟩ (prevAfter a none) (nextOf b none) hRstm
      simpa using h
    have hn1 : nextOf b none ≠ some '-' := by
      cases b with
      | nil => simp [nextOf]
      | cons x xs =>
          have hx := hb x (by simp)
          obtain ⟨hd, _, _, _⟩ := wsChar_ne x hx
          simp only [nextOf, ne_eq, Option.some.injEq]
          exact hd
    have hfoll := scan_next_irrel ⟨segs.map jsTrim, [], false, false, none⟩
      (prevAfter a none) (nextOf b none) none (jsTrim B) hn1 (by simp)
    have hprev := scan_prev_irrel ⟨segs.map jsTrim, [], false, false, none⟩
      (prevAfter a none) none none (jsTrim B) rfl
    have hrep2 : scanSql initState none ((segs.map jsTrim).flatten ++ jsTrim B) none =
        scanSql ⟨segs.map jsTrim, [], false, false, none⟩ none (jsTrim B) none := by
      have h := replay_segs segs hsegs [] none none (jsTrim B)
      simpa using h
    have hfl : ((segs.map jsTrim) ++ [jsTrim B]).flatten =
        (segs.map jsTrim).flatten ++ jsTrim B := by simp
    rw [hfl, splitChars_eq, hrep2, ← hprev, ← hfoll, hRcur, hRstm, jsTrim_idem, if_neg hc]

theorem foldl_append_data (L : List (List Char)) :
    ∀ acc : String, (List.foldl (fun r s => r ++ s) acc (L.map String.mk)).data =
      acc.data ++ L.flatten := by
  induction L with
  | nil =>
      intro acc
      simp
  | cons x L' ih =>
      intro acc
      simp only [List.map_cons, List.foldl_cons]
      rw [ih (acc ++ String.mk x)]
      simp [String.data_append, List.append_assoc]

theorem join_map_mk (L : List (List Char)) :
    (String.join (L.map String.mk)).data = L.flatten := by
  unfold String.join
  rw [foldl_append_data L ""]
  rfl

/-- C8 at the `String` boundary: re-joining the emitted statements and
re-splitting yields the same sequence. -/
theorem splitSqlStatements_idempotent (s : String) :
    splitSqlStatements (String.join (splitSqlStatements s)) = splitSqlStatements s := by
  unfold splitSqlStatements
  rw [join_map_mk]
  rw [splitSql_idempotent s.data]

/-- While inside a string that never closes, the scan only accumulates. -/
theorem scan_inString_skip (l : List Char) :
    ∀ (st : SplitState) (p foll : Option Char) (q : Char),
      st.inString = true → st.inComment = false → st.stringChar = some q →
      staysInString q p l = true →
      scanSql st p l foll = { st with current := st.current ++ l } := by
  induction l with
  | nil =>
      intro st p foll q _ _ _ _
      cases st
      simp [scanSql_nil]
  | cons c rest ih =>
      intro st p foll q his hic hq hstay
      unfold staysInString at hstay
      by_cases hcq : c = q ∧ p ≠ some '\\'
      · rw [if_pos hcq] at hstay
        cases hstay
      · rw [if_neg hcq] at hstay
        have hstep : stepSplit st p c (nextOf rest foll) =
            { st with current := st.current ++ [c] } := by
          apply step_string_skip st p (nextOf rest foll) c
          · rintro ⟨hf, _, _⟩
            rw [his] at hf
            cases hf
          · exact hic
          · intro hh
            apply hcq
            rw [hq] at hh
            exact ⟨Option.some_inj.mp hh.1, hh.2⟩
          · exact his
        rw [scanSql_cons, hstep]
        have hrec := ih { st with current := st.current ++ [c] } (some c) foll q
          his hic hq hstay
        rw [hrec]
        cases st
        simp [List.append_assoc]

/-- C10: once the scan is inside a string that is never closed before end
of input, no later `;` ends a statement: the whole remainder is appended
to the buffer, and (when non-whitespace) emitted, trimmed, as the single
final statement. -/
theorem splitSql_unclosed_string :
    ∀ (pfx rest : List Char) (q : Char),
      (scanSql initState none pfx (nextOf rest none)).inString = true →
      (scanSql initState none pfx (nextOf rest none)).inComment = false →
      (scanSql initState none pfx (nextOf rest none)).stringChar = some q →
      staysInString q (prevAfter pfx none) rest = true →
      jsTrim ((scanSql initState none pfx (nextOf rest none)).current ++ rest) ≠ [] →
      splitChars (pfx ++ rest) =
        (scanSql initState none pfx (nextOf rest none)).statements ++
          [jsTrim ((scanSql initState none pfx (nextOf rest none)).current ++ rest)] := by
  intro pfx rest q h1 h2 h3 h4 h5
  rw [splitChars_eq]
  rw [scan_append pfx rest initState none none]
  rw [scan_inString_skip rest _ _ none q h1 h2 h3 h4]
  dsimp only
  rw [if_neg h5]

/-- Witness for C10: an unclosed single quote spanning a newline swallows
the later `;`, and the whole remainder is one trimmed final statement. -/
theorem splitSql_unclosed_string_witness :
    splitChars (['\''] ++ ['a', '\n', ';', 'b']) =
      (scanSql initState none ['\''] (nextOf ['a', '\n', ';', 'b'] none)).statements ++
        [jsTrim ((scanSql initState none ['\'']
          (nextOf ['a', '\n', ';', 'b'] none)).current ++ ['a', '\n', ';', 'b'])] :=
  splitSql_unclosed_string ['\''] ['a', '\n', ';', 'b'] '\''
    (by decide) (by decide) (by decide) (by decide) (by decide)
